import Mathlib

/-!
Verification of the Merculy news-curation core.

Shallow embedding of the fetch/dedup pipeline
(`src/services/news_service.py`, `app/services/news.py`), the AI
enrichment steps (`src/services/gemini_service.py`, the enrichment loop in
`src/routes/news.py`) and the asynchronous bias-corroboration worker
(`GeminiService.analyze_comprehensive_bias`), together with proofs of the
specified properties.

External collaborators (the News API, the Gemini HTTP endpoint and the
Cosmos document store) are modelled as explicit oracles passed to each
function; the embedded code is a direct transcription of the Python
control flow over those oracles.
-/

namespace Merculy

/-! ## Python string primitives -/

/-- Model of Python `str.lower()` via `Char.toLower`. -/
def pyLower (s : String) : String := String.mk (s.data.map Char.toLower)

/-- Truthiness of an optional Python string: `None` and `""` are falsy. -/
def pyTruthy (o : Option String) : Bool := !(o.getD "").isEmpty

/-- Drop leading whitespace characters. -/
def dropSpaces (l : List Char) : List Char := l.dropWhile Char.isWhitespace

/-- Model of Python `str.strip()`: drop whitespace at both ends. -/
def pyStrip (s : String) : String :=
  String.mk ((dropSpaces ((dropSpaces s.data).reverse)).reverse)

/-- Check that `pre` is an initial segment of `l`. -/
def prefAt : List Char → List Char → Bool
  | [], _ => true
  | _ :: _, [] => false
  | a :: as, b :: bs => a == b && prefAt as bs

/-- Occurrence of `needle` somewhere in `hay` (list-of-characters form). -/
def containsSubAux (needle : List Char) : List Char → Bool
  | [] => needle.isEmpty
  | h :: t => prefAt needle (h :: t) || containsSubAux needle t

/-- Model of Python `needle in hay` on strings: substring containment. -/
def containsSub (hay needle : String) : Bool := containsSubAux needle.data hay.data

/-- Model of Python `s.startswith(pre)`. -/
def strStarts (s pre : String) : Bool := prefAt pre.data s.data

/-- Model of Python slicing `s[n:]` (character based). -/
def pyDropStr (s : String) (n : Nat) : String := String.mk (s.data.drop n)

/-! ## AI Text Service (`src/services/gemini_service.py`)

The service object carries the configuration flag (`api_key is not None`,
the value of `is_available`) and an oracle `respond` giving the text that a
successful HTTP round trip would produce (`none` models a request
exception, a non-200 status or a response without candidates). -/

structure GeminiService where
  configured : Bool
  respond : String → Option String

/-- Model of `GeminiService._make_request`: `None` unless the key is
configured and the HTTP call yields a candidate text. -/
def GeminiService.make_request (g : GeminiService) (prompt : String) : Option String :=
  if g.configured then g.respond prompt else none

/-- Prompt built by `summarize_article`. -/
def summaryPrompt (title content : String) : String :=
  "Resuma o seguinte artigo de noticias em no maximo 3 linhas: Titulo: "
    ++ title ++ " Conteudo: " ++ content

/-- Prompt built by `generate_bullet_point_highlights`. -/
def bulletPrompt (title content : String) : String :=
  "Crie exatamente 3 frases destacando os principais aspectos: Titulo: "
    ++ title ++ " Conteudo: " ++ content

/-- Prompt built by `analyze_political_bias`. -/
def biasPrompt (title content : String) : String :=
  "Analise o vies politico do seguinte artigo de noticias: Titulo: "
    ++ title ++ " Conteudo: " ++ content

/-- Model of `GeminiService.summarize_article` (returns the raw response). -/
def GeminiService.summarize_article (g : GeminiService) (title content : String) :
    Option String :=
  g.make_request (summaryPrompt title content)

/-- Line parsing done by `generate_bullet_point_highlights`: split on
newlines, strip, drop blank lines, strip bullet markers, keep at most 3. -/
def parseBulletLines (result : String) : List String :=
  let lines := ((result.splitOn "\n").map pyStrip).filter (fun l => !l.isEmpty)
  let pts := lines.map (fun line =>
    if strStarts line "• " || strStarts line "- " || strStarts line "* " then
      pyDropStr line 2
    else line)
  if 3 ≤ pts.length then pts.take 3 else pts

/-- Model of `GeminiService.generate_bullet_point_highlights`; a falsy
(`None` or empty) raw response yields `none`. -/
def GeminiService.generate_bullet_point_highlights (g : GeminiService)
    (title content : String) : Option (List String) :=
  match g.make_request (bulletPrompt title content) with
  | none => none
  | some result => if result.isEmpty then none else some (parseBulletLines result)

/-- Normalisation step of `analyze_political_bias`: lowercase and strip the
response, then test `'esquerda' in result` before `'direita' in result`,
defaulting to `"centro"`. -/
def normalizeBias (result : String) : String :=
  let r := pyStrip (pyLower result)
  if containsSub r "esquerda" then "esquerda"
  else if containsSub r "direita" then "direita"
  else "centro"

/-- Model of `GeminiService.analyze_political_bias`: a falsy raw response
(request failure or empty text) falls back to `"centro"`. -/
def GeminiService.analyze_political_bias (g : GeminiService) (title content : String) :
    String :=
  match g.make_request (biasPrompt title content) with
  | none => "centro"
  | some result => if result.isEmpty then "centro" else normalizeBias result

/-! ## Article records -/

/-- Processed article dictionary built by `NewsService.get_news_by_topic`
and mutated by the enrichment loop in `src/routes/news.py`. -/
structure Article where
  title : String
  content : String
  summary : String
  source : String
  url : String
  topic : String
  published_at : String
  image_url : Option String
  political_bias : Option String := none
  bullet_point_highlights : Option (List String) := none
deriving Repr, DecidableEq

/-- Enrichment of one article, as performed inside the loops of
`get_news_by_topic` / `get_news_by_multiple_topics` in
`src/routes/news.py`: the three AI steps run only under
`gemini_service.is_available()`; a falsy summary or highlight result
leaves the field unchanged, while the bias label is assigned
unconditionally inside the available branch. -/
def enrichArticle (g : GeminiService) (a : Article) : Article :=
  if g.configured then
    let a1 := match g.summarize_article a.title a.content with
      | some s => if s.isEmpty then a else { a with summary := s }
      | none => a
    let a2 := match g.generate_bullet_point_highlights a1.title a1.content with
      | some bs => if bs.isEmpty then a1 else { a1 with bullet_point_highlights := some bs }
      | none => a1
    { a2 with political_bias := some (g.analyze_political_bias a2.title a2.content) }
  else a

/-- Batch enrichment: the route processes the fetched articles one by one,
appending each to `processed_articles`. -/
def process_articles (g : GeminiService) (arts : List Article) : List Article :=
  arts.map (enrichArticle g)

/-! ## Deduplication (`app/services/news.py`, `NewsService.deduplicate_articles`) -/

/-- Fetched article dictionary of `app/services/news.py`. -/
structure FetchedArticle where
  title : String
  url : String
  excerpt : String
  content : String
  source : String
  published_at : String
  topic : String
deriving Repr, DecidableEq

/-- Loop of `deduplicate_articles` with its `seen_urls` accumulator. -/
def dedupAux (seen : List String) : List FetchedArticle → List FetchedArticle
  | [] => []
  | a :: rest =>
    if a.url ∈ seen then dedupAux seen rest
    else a :: dedupAux (a.url :: seen) rest

/-- Model of `NewsService.deduplicate_articles`: keep an article when its
URL has not been seen yet. -/
def deduplicate_articles (articles : List FetchedArticle) : List FetchedArticle :=
  dedupAux [] articles

/-! ## Source catalog resolution (`src/services/news_service.py`)

The catalog parameter is the list returned by
`cosmos_service.get_available_channels()` (already filtered to active
channels; the empty list covers both an unavailable store and an empty
catalog, as that function returns `[]` in every failure path). -/

/-- Channel record of the `newsConf` catalog; `country` models the
optional `channel.get('country')` lookup. -/
structure Channel where
  domain : String
  country : Option String
deriving Repr, DecidableEq

/-- Hardcoded fallback list of `NewsService.get_brazilian_sources_domains`. -/
def default_brazilian_domains : List String :=
  ["globo.com", "folha.uol.com.br", "estadao.com.br", "g1.globo.com", "uol.com.br",
   "veja.abril.com.br", "exame.com", "valor.com.br", "bbc.com/portuguese",
   "cnnbrasil.com.br"]

/-- Model of `NewsService.get_brazilian_sources_domains`: when the catalog
list is truthy, return the domains of its channels whose country is
`'br'`; otherwise fall back to the hardcoded list. -/
def get_brazilian_sources_domains (channels : List Channel) : List String :=
  if channels.isEmpty then default_brazilian_domains
  else (channels.filter (fun c => c.country == some "br")).map (fun c => c.domain)

/-! ## Per-topic fetch (`NewsService.get_news_by_topic`) -/

/-- Raw article as returned by the News API (`result['articles']`
entries); every field is an optional dictionary entry. -/
structure RawArticle where
  title : Option String
  description : Option String
  content : Option String
  source_name : Option String
  url : Option String
  publishedAt : Option String
  urlToImage : Option String
deriving Repr, DecidableEq

/-- Validity filter of the fetch loop: `article.get('title') and
article.get('description')` must both be truthy. -/
def valid_raw (r : RawArticle) : Bool := pyTruthy r.title && pyTruthy r.description

/-- Construction of the processed article dictionary inside
`get_news_by_topic`. The `datetime.now()` default for a missing
`publishedAt` is modelled by a fixed placeholder string, since wall-clock
time is irrelevant to every property proved here. -/
def process_raw (topic : String) (r : RawArticle) : Article :=
  { title := r.title.getD ""
    content := r.description.getD "" ++ " " ++ r.content.getD ""
    summary := r.description.getD ""
    source := r.source_name.getD "Unknown"
    url := r.url.getD ""
    topic := topic
    published_at := r.publishedAt.getD "datetime.now().isoformat()"
    image_url := r.urlToImage }

/-- Base share of `limit` for each of `n` sources:
`news_per_source = max(1, limit // len(selected_sources))`. -/
def news_per_source (limit n : Nat) : Nat := max 1 (limit / n)

/-- Sub-limit of the `i`-th source: the first `limit % n` sources receive
one extra unit. -/
def source_limit (limit n i : Nat) : Nat :=
  news_per_source limit n + (if i < limit % n then 1 else 0)

/-- Sub-limits of all domains in order. -/
def sub_limits (limit : Nat) (domains : List String) : List Nat :=
  (List.range domains.length).map (source_limit limit domains.length)

/-- Inner loop of `get_news_by_topic` for one source: append each valid
raw article, breaking as soon as the accumulator reaches `src_limit`. -/
def collect_source_articles (topic : String) (src_limit : Nat) :
    List RawArticle → List Article → List Article
  | [], acc => acc
  | r :: rest, acc =>
    if valid_raw r then
      let acc2 := acc ++ [process_raw topic r]
      if src_limit ≤ acc2.length then acc2
      else collect_source_articles topic src_limit rest acc2
    else collect_source_articles topic src_limit rest acc

/-- Domain loop of `get_news_by_topic`: each domain is queried
independently (`api d = none` models a failed request or a response
without `'articles'`, contributing zero articles), the per-source results
are concatenated in domain order, and the final list is truncated to
`limit`. The keyword query sent with each request is constant across the
loop and is abstracted into `api`. -/
def fetch_topic_articles (api : String → Option (List RawArticle)) (topic : String)
    (limit : Nat) (domains : List String) : List Article :=
  ((domains.enum.map (fun p =>
      match api p.2 with
      | some raws => collect_source_articles topic (source_limit limit domains.length p.1) raws []
      | none => [])).flatten).take limit

/-- Source selection at the top of `get_news_by_topic`:
`if user_channels and len(user_channels) > 0` picks the user's channels,
otherwise the resolved Brazilian domains. -/
def resolve_selected_sources (channels : List Channel)
    (user_channels : Option (List String)) : List String :=
  match user_channels with
  | some cs => if 0 < cs.length then cs else get_brazilian_sources_domains channels
  | none => get_brazilian_sources_domains channels

/-- Model of `NewsService.get_news_by_topic`. The only uncaught exception
in its body is the `ZeroDivisionError` raised by
`limit // len(selected_sources)` when the selected source list is empty;
every other failure is absorbed by `_make_news_api_request`. -/
def get_news_by_topic (api : String → Option (List RawArticle)) (channels : List Channel)
    (user_channels : Option (List String)) (topic : String) (limit : Nat) :
    Except String (List Article) :=
  let selected := resolve_selected_sources channels user_channels
  if selected.length = 0 then
    Except.error "ZeroDivisionError: integer division or modulo by zero"
  else
    Except.ok (fetch_topic_articles api topic limit selected)

/-! ## Bias corroboration worker (`GeminiService.analyze_comprehensive_bias`)

The worker body `_async_analysis` is modelled as a total function from its
external interactions to the sequence of status values it writes through
`cosmos_service.update_article_bias_status` (the trace) together with the
number of `RelatedSource` records created. `search` models the outcome of
everything up to and including `news_service.search_news` (an `error`
value is an exception absorbed by the outer `try`), and `create` models
`related_source_service.create_related_source` for one candidate (`error`
is an exception absorbed by the inner per-candidate `try`, `ok none` a
store refusal, `ok (some r)` a created record). -/

/-- Persisted article object handed to the worker (`CosmosNewsArticle`). -/
structure ArticleObj where
  id : String
  title : String
  source : String
deriving Repr, DecidableEq

/-- RelatedSource record created for one corroborating candidate. -/
structure RelatedSource where
  article_id : String
  title : String
  political_bias : String
  published_at : String
  news_quote : String
  source : String
deriving Repr, DecidableEq

/-- Source-diversity loop: append candidates whose source differs
(case-insensitively) from the original article's source, checking the cap
of 8 after every iteration. -/
def collect_diverse (orig_source : String) : List Article → List Article → List Article
  | [], acc => acc
  | a :: rest, acc =>
    let acc2 := if pyLower a.source ≠ pyLower orig_source then acc ++ [a] else acc
    if 8 ≤ acc2.length then acc2 else collect_diverse orig_source rest acc2

/-- Representative quote: `paragraphs[0] if paragraphs else content[:200]`;
`str.split('\n')` never returns an empty list, so the first branch always
applies. -/
def news_quote_of (content : String) : String :=
  match content.splitOn "\n" with
  | [] => content.take 200
  | p :: _ => p

/-- Candidate loop of the worker: classify each diverse candidate and try
to persist it, counting created records; a per-candidate exception or a
`None` result leaves the count unchanged and continues the loop. -/
def process_candidates (g : GeminiService) (article_id : String)
    (create : RelatedSource → Except String (Option RelatedSource)) :
    List Article → Nat → Nat
  | [], cnt => cnt
  | ra :: rest, cnt =>
    let quote := news_quote_of ra.content
    let bias := g.analyze_political_bias ra.title (ra.content.take 400)
    match create ⟨article_id, ra.title, bias, ra.published_at, quote, ra.source⟩ with
    | Except.error _ => process_candidates g article_id create rest cnt
    | Except.ok none => process_candidates g article_id create rest cnt
    | Except.ok (some _) => process_candidates g article_id create rest (cnt + 1)

/-- Model of the worker run `_async_analysis`: returns the trace of status
writes and the number of RelatedSource records created. Every branch of
the Python body is covered: search failure (outer `except`), empty search
result, no diverse source, and the final count-based decision. -/
def analyze_comprehensive_bias (g : GeminiService) (article_obj : ArticleObj)
    (search : Except String (List Article))
    (create : RelatedSource → Except String (Option RelatedSource)) :
    List String × Nat :=
  match search with
  | Except.error _ => (["generating", "error"], 0)
  | Except.ok related =>
    if related.isEmpty then (["generating", "error"], 0)
    else
      let diverse := collect_diverse article_obj.source related []
      if diverse.isEmpty then (["generating", "error"], 0)
      else
        let created := process_candidates g article_obj.id create diverse 0
        if 0 < created then (["generating", "available"], created)
        else (["generating", "error"], created)

/-- Final status of a worker run: the last status written in its trace. -/
def worker_final_status (r : List String × Nat) : String := r.1.getLastD "not_started"

/-! ## Multi-topic distribution (`NewsService.get_news_by_multiple_topics`)

The per-topic fetch `self.get_news_by_topic(topic, limit, selected_sources)`
is abstracted into an oracle `F : String → Nat → List Article` (the
selected sources are fixed for the whole call, and the fetch is a pure
function of topic and limit for fixed external responses). The Python
`news_by_topic` dictionary is an insertion-ordered association list. -/

/-- Topic-to-articles dictionary. -/
abbrev TopicMap := List (String × List Article)

/-- Dictionary lookup. -/
def alGet : TopicMap → String → Option (List Article)
  | [], _ => none
  | (k, v) :: rest, t => if k = t then some v else alGet rest t

/-- Dictionary assignment `d[t] = v`: replace in place, else append. -/
def alSet : TopicMap → String → List Article → TopicMap
  | [], t, v => [(t, v)]
  | (k, w) :: rest, t, v =>
    if k = t then (k, v) :: rest else (k, w) :: alSet rest t v

/-- In-place mutation `f` of the list stored at key `t` (no effect when
the key is absent). -/
def alUpdate : TopicMap → String → (List Article → List Article) → TopicMap
  | [], _, _ => []
  | (k, w) :: rest, t, f =>
    if k = t then (k, f w) :: rest else (k, w) :: alUpdate rest t f

/-- Total number of articles stored in the dictionary. -/
def topics_total (m : TopicMap) : Nat := (m.map (fun p => p.2.length)).sum

/-- First pass: give each topic `min_per_topic = 1` article, breaking once
`total_collected >= limit`; a topic whose fetch comes back empty is
skipped. Returns the dictionary and `total_collected`. -/
def pass1 (F : String → Nat → List Article) (limit : Nat) :
    List String → TopicMap → Nat → TopicMap × Nat
  | [], m, tot => (m, tot)
  | t :: ts, m, tot =>
    if limit ≤ tot then (m, tot)
    else
      let arts := F t 1
      if arts.isEmpty then pass1 F limit ts m tot
      else pass1 F limit ts (alSet m t arts) (tot + arts.length)

/-- Second pass: topics already present with fewer than
`max_per_topic = 2` articles receive at most one additional article not
already held (by URL), while `remaining_limit` lasts. Returns the
dictionary, `total_collected` and `remaining_limit`. -/
def pass2 (F : String → Nat → List Article) :
    List String → TopicMap → Nat → Nat → TopicMap × Nat × Nat
  | [], m, tot, rem => (m, tot, rem)
  | t :: ts, m, tot, rem =>
    if rem = 0 then (m, tot, rem)
    else
      match alGet m t with
      | none => pass2 F ts m tot rem
      | some arts =>
        if arts.length < 2 then
          let additional := F t 2
          let existing_urls := arts.map (fun a => a.url)
          let new_articles := additional.filter (fun a => !(existing_urls.contains a.url))
          match new_articles with
          | [] => pass2 F ts m tot rem
          | a :: _ => pass2 F ts (alUpdate m t (fun w => w ++ [a])) (tot + 1) (rem - 1)
        else pass2 F ts m tot rem

/-- Third pass: while `remaining_limit` lasts, each present topic may gain
up to `can_add = min(remaining_limit, 3)` further unseen articles fetched
with limit `max_per_topic + can_add`. -/
def pass3 (F : String → Nat → List Article) :
    List String → TopicMap → Nat → Nat → TopicMap × Nat × Nat
  | [], m, tot, rem => (m, tot, rem)
  | t :: ts, m, tot, rem =>
    if rem = 0 then (m, tot, rem)
    else
      match alGet m t with
      | none => pass3 F ts m tot rem
      | some arts =>
        let can_add := min rem 3
        if can_add = 0 then pass3 F ts m tot rem
        else
          let extended := F t (2 + can_add)
          let existing_urls := arts.map (fun a => a.url)
          let new_articles := extended.filter (fun a => !(existing_urls.contains a.url))
          let to_add := new_articles.take can_add
          pass3 F ts (alUpdate m t (fun w => w ++ to_add))
            (tot + to_add.length) (rem - to_add.length)

/-- Model of `NewsService.get_news_by_multiple_topics`: empty topic list
short-circuits to the empty dictionary, otherwise the three passes run in
order, `remaining_limit` being recomputed as `limit - total_collected`
before the second and third passes. -/
def get_news_by_multiple_topics (F : String → Nat → List Article)
    (topics : List String) (limit : Nat) : TopicMap :=
  if topics.isEmpty then []
  else
    let r1 := pass1 F limit topics [] 0
    let r2 := pass2 F topics r1.1 r1.2 (limit - r1.2)
    let r3 := pass3 F topics r2.1 r2.2.1 (limit - r2.2.1)
    r3.1

/-! ## Concrete instances used to evaluate the theorems -/

/-- Gemini client with no API key configured (`is_available()` false). -/
def gemini_unconfigured : GeminiService := ⟨false, fun _ => none⟩

/-- Gemini client with a key configured but every HTTP request failing. -/
def gemini_failing : GeminiService := ⟨true, fun _ => none⟩

/-- Fetched article as produced by the per-topic fetcher (its `summary`
field holds the non-empty description/excerpt). -/
def demo_article : Article :=
  { title := "T", content := "desc conteudo", summary := "desc", source := "G1",
    url := "http://g1/1", topic := "tecnologia", published_at := "2025-01-01",
    image_url := none }

/-- Short constructor for fetched-article records in dedup tests. -/
def fa (t u : String) : FetchedArticle := ⟨t, u, "e", "c", "s", "2025-01-01", "geral"⟩

/-- Input with a duplicated URL. -/
def dup_demo : List FetchedArticle := [fa "t1" "u1", fa "t2" "u1", fa "t3" "u2"]

/-- Catalog consisting of a single non-Brazilian channel. -/
def us_channel : Channel := ⟨"nytimes.com", some "us"⟩

/-- News API oracle with every request failing. -/
def no_api : String → Option (List RawArticle) := fun _ => none

/-- Complete raw article accepted by the validity filter. -/
def raw_demo : RawArticle :=
  ⟨some "T", some "D", some "C", some "S", some "http://u", some "2025", none⟩

/-- News API oracle returning one article for every domain. -/
def api_demo : String → Option (List RawArticle) := fun _ => some [raw_demo]

/-- Article supply for the multi-topic oracle, one distinct URL per index. -/
def multi_demo_article (t : String) (i : Nat) : Article :=
  { title := t, content := "c", summary := "s", source := "src",
    url := t ++ toString i, topic := t, published_at := "p", image_url := none }

/-- Per-topic fetch oracle delivering exactly the requested number of
distinct articles for every topic. -/
def F_demo : String → Nat → List Article :=
  fun t k => (List.range k).map (multi_demo_article t)

/-! ## Theorems -/

theorem range_map_split (b : Nat) :
    ∀ n r : Nat, r ≤ n →
      (List.range n).map (fun i => b + if i < r then 1 else 0) =
        List.replicate r (b + 1) ++ List.replicate (n - r) b := by
  intro n
  induction n with
  | zero =>
    intro r hr
    have : r = 0 := Nat.le_zero.mp hr
    subst this
    simp
  | succ n ih =>
    intro r hr
    rcases Nat.lt_or_ge r (n + 1) with h | h
    · rw [List.range_succ, List.map_append]
      have hrn : r ≤ n := Nat.lt_succ_iff.mp h
      rw [ih r hrn]
      have hnr : ¬ n < r := Nat.not_lt.mpr hrn
      simp only [List.map_cons, List.map_nil, hnr, if_false, Nat.add_zero]
      rw [List.append_assoc]
      congr 1
      rw [← List.replicate_succ']
      congr 1
      omega
    · have hr1 : r = n + 1 := le_antisymm hr h
      subst hr1
      have hmap : (List.range (n + 1)).map (fun i => b + if i < n + 1 then 1 else 0)
          = (List.range (n + 1)).map (fun _ => b + 1) :=
        List.map_congr_left (fun i hi => by rw [if_pos (List.mem_range.mp hi)])
      rw [hmap, List.map_const', List.length_range, Nat.sub_self,
        List.replicate_zero, List.append_nil]

/-- C5: for `limit ≥ 1` and a non-empty domain list of size `n`,
`get_news_by_topic` distributes `limit` as `base = max(1, limit / n)` with
`remainder = limit % n`, the first `remainder` domains receiving `base + 1`
and the rest `base`; for three domains and `limit = 10` the per-domain
sub-limits are `[4, 3, 3]`. -/
theorem sub_limits_spec (limit : Nat) (domains : List String)
    (h1 : 1 ≤ limit) (h2 : domains ≠ []) :
    sub_limits limit domains =
      List.replicate (limit % domains.length)
        (max 1 (limit / domains.length) + 1) ++
      List.replicate (domains.length - limit % domains.length)
        (max 1 (limit / domains.length)) ∧
    sub_limits 10 ["a.com", "b.com", "c.com"] = [4, 3, 3] := by
  constructor
  · have hn : 0 < domains.length := List.length_pos.mpr h2
    have hr : limit % domains.length ≤ domains.length := le_of_lt (Nat.mod_lt _ hn)
    simp only [sub_limits, source_limit, news_per_source]
    exact range_map_split _ _ _ hr
  · rfl

/-- Witness evaluating the C5 scenario. -/
theorem sub_limits_spec_witness :
    sub_limits 10 ["a.com", "b.com", "c.com"] = [4, 3, 3] :=
  (sub_limits_spec 10 ["a.com", "b.com", "c.com"] (by decide) (by decide)).2

/-- C6 counterexample: the code tests `'esquerda' in result` before
`'direita' in result`, so a response containing both tokens is mapped to
`"esquerda"`, contradicting the claim that every response containing the
`direita` token yields the right label. -/
theorem bias_direita_counterexample :
    containsSub (pyStrip (pyLower "Entre esquerda e direita")) "direita" = true ∧
    GeminiService.analyze_political_bias
      ⟨true, fun _ => some "Entre esquerda e direita"⟩ "T" "C" = "esquerda" ∧
    "esquerda" ≠ "direita" := by
  refine ⟨by rfl, by rfl, by decide⟩

/-- C6 amended: after lowercasing and stripping the response, a response
containing `esquerda` maps to the left label; one containing `direita` but
not `esquerda` maps to the right label; anything else maps to `centro`;
a failed request or empty response also maps to `centro`. -/
theorem analyze_political_bias_normalization (g : GeminiService) (t c r : String) :
    (containsSub (pyStrip (pyLower r)) "esquerda" = true →
      normalizeBias r = "esquerda") ∧
    (containsSub (pyStrip (pyLower r)) "esquerda" = false →
      containsSub (pyStrip (pyLower r)) "direita" = true →
      normalizeBias r = "direita") ∧
    (containsSub (pyStrip (pyLower r)) "esquerda" = false →
      containsSub (pyStrip (pyLower r)) "direita" = false →
      normalizeBias r = "centro") ∧
    (g.make_request (biasPrompt t c) = none →
      g.analyze_political_bias t c = "centro") ∧
    (g.make_request (biasPrompt t c) = some r → r.isEmpty = false →
      g.analyze_political_bias t c = normalizeBias r) ∧
    (g.make_request (biasPrompt t c) = some "" →
      g.analyze_political_bias t c = "centro") := by
  refine ⟨?_, ?_, ?_, ?_, ?_, ?_⟩
  · intro h; simp [normalizeBias, h]
  · intro h1 h2; simp [normalizeBias, h1, h2]
  · intro h1 h2; simp [normalizeBias, h1, h2]
  · intro h; simp [GeminiService.analyze_political_bias, h]
  · intro h hne; simp [GeminiService.analyze_political_bias, h, hne]
  · intro h
    simp only [GeminiService.analyze_political_bias, h]
    decide

/-- Witness evaluating the C6 normalization on a concrete response. -/
theorem analyze_political_bias_normalization_witness :
    normalizeBias "Claramente DIREITA." = "direita" :=
  (analyze_political_bias_normalization gemini_unconfigured "t" "c"
    "Claramente DIREITA.").2.1 (by rfl) (by rfl)

theorem dedupAux_sublist :
    ∀ (l : List FetchedArticle) (seen : List String), (dedupAux seen l).Sublist l := by
  intro l
  induction l with
  | nil => intro seen; simp [dedupAux]
  | cons a rest ih =>
    intro seen
    simp only [dedupAux]
    split
    · exact (ih seen).trans (List.sublist_cons_self a rest)
    · exact (ih (a.url :: seen)).cons₂ a

theorem dedupAux_mem_url :
    ∀ (l : List FetchedArticle) (seen : List String) (a : FetchedArticle),
      a ∈ dedupAux seen l → a.url ∉ seen := by
  intro l
  induction l with
  | nil => intro seen a h; simp [dedupAux] at h
  | cons b rest ih =>
    intro seen a h
    simp only [dedupAux] at h
    split at h
    · exact ih seen a h
    · rename_i hb
      rcases List.mem_cons.mp h with heq | hmem
      · subst heq; exact hb
      · have := ih (b.url :: seen) a hmem
        exact fun hs => this (List.mem_cons_of_mem _ hs)

theorem dedupAux_pairwise :
    ∀ (l : List FetchedArticle) (seen : List String),
      (dedupAux seen l).Pairwise (fun a b => a.url ≠ b.url) := by
  intro l
  induction l with
  | nil => intro seen; simp [dedupAux]
  | cons a rest ih =>
    intro seen
    simp only [dedupAux]
    split
    · exact ih seen
    · refine List.Pairwise.cons ?_ (ih (a.url :: seen))
      intro x hx
      have := dedupAux_mem_url rest (a.url :: seen) x hx
      intro hax
      exact this (by rw [← hax]; exact List.mem_cons_self _ _)

theorem dedupAux_countP (u : String) :
    ∀ (l : List FetchedArticle) (seen : List String), u ∉ seen →
      (dedupAux seen l).countP (fun a => a.url == u) =
        if l.any (fun a => a.url == u) then 1 else 0 := by
  intro l
  induction l with
  | nil => intro seen hu; simp [dedupAux]
  | cons a rest ih =>
    intro seen hu
    simp only [dedupAux]
    split
    · rename_i ha
      have hau : ¬ (a.url == u) = true := fun h => hu (eq_of_beq h ▸ ha)
      rw [ih seen hu]
      simp only [List.any_cons, hau, Bool.false_or]
    · rename_i ha
      by_cases hau : a.url = u
      · subst hau
        rw [List.countP_cons]
        simp only [beq_self_eq_true, if_true]
        have hzero : (dedupAux (a.url :: seen) rest).countP (fun x => x.url == a.url) = 0 := by
          rw [List.countP_eq_zero]
          intro x hx
          have := dedupAux_mem_url rest (a.url :: seen) x hx
          simp only [beq_iff_eq]
          intro hxa
          exact this (by rw [hxa]; exact List.mem_cons_self _ _)
        rw [hzero]
        simp
      · rw [List.countP_cons]
        have hbe : ¬ (a.url == u) = true := by simpa using hau
        simp only [hbe, if_false, Nat.add_zero]
        have hu2 : u ∉ a.url :: seen := by
          intro hmem
          rcases List.mem_cons.mp hmem with heq | h2
          · exact hau heq.symm
          · exact hu h2
        rw [ih (a.url :: seen) hu2]
        simp only [List.any_cons, hbe, Bool.false_or]
        simp

theorem dedupAux_find (u : String) :
    ∀ (l : List FetchedArticle) (seen : List String), u ∉ seen →
      (dedupAux seen l).find? (fun a => a.url == u) = l.find? (fun a => a.url == u) := by
  intro l
  induction l with
  | nil => intro seen hu; simp [dedupAux]
  | cons a rest ih =>
    intro seen hu
    simp only [dedupAux]
    split
    · rename_i ha
      have hau : ¬ (a.url == u) = true := fun h => hu (eq_of_beq h ▸ ha)
      rw [ih seen hu, @List.find?_cons_of_neg _ (fun x => x.url == u) a rest hau]
    · rename_i ha
      by_cases hau : (a.url == u) = true
      · rw [@List.find?_cons_of_pos _ (fun x => x.url == u) a
            (dedupAux (a.url :: seen) rest) hau,
          @List.find?_cons_of_pos _ (fun x => x.url == u) a rest hau]
      · have hu2 : u ∉ a.url :: seen := by
          intro hmem
          rcases List.mem_cons.mp hmem with heq | hmem2
          · exact hau (by simp [heq])
          · exact hu hmem2
        rw [@List.find?_cons_of_neg _ (fun x => x.url == u) a
            (dedupAux (a.url :: seen) rest) hau,
          @List.find?_cons_of_neg _ (fun x => x.url == u) a rest hau,
          ih (a.url :: seen) hu2]

theorem dedupAux_id :
    ∀ (l : List FetchedArticle) (seen : List String),
      (∀ a ∈ l, a.url ∉ seen) → l.Pairwise (fun a b => a.url ≠ b.url) →
      dedupAux seen l = l := by
  intro l
  induction l with
  | nil => intro seen _ _; rfl
  | cons a rest ih =>
    intro seen hmem hpw
    simp only [dedupAux]
    rw [if_neg (hmem a (List.mem_cons_self _ _))]
    congr 1
    rcases List.pairwise_cons.mp hpw with ⟨hhead, htail⟩
    refine ih (a.url :: seen) ?_ htail
    intro x hx hs
    rcases List.mem_cons.mp hs with heq | hseen
    · exact hhead x hx heq.symm
    · exact hmem x (List.mem_cons_of_mem _ hx) hseen

/-- C9: after `deduplicate_articles`, no two surviving articles share a
URL, and every URL present in the input survives in exactly one article. -/
theorem deduplicate_articles_unique (l : List FetchedArticle) :
    (deduplicate_articles l).Pairwise (fun a b => a.url ≠ b.url) ∧
    ∀ a ∈ l, (deduplicate_articles l).countP (fun x => x.url == a.url) = 1 := by
  constructor
  · exact dedupAux_pairwise l []
  · intro a ha
    rw [deduplicate_articles, dedupAux_countP a.url l [] (by simp), if_pos]
    exact List.any_eq_true.mpr ⟨a, ha, by simp⟩

/-- Witness evaluating C9 on an input with a duplicated URL. -/
theorem deduplicate_articles_unique_witness :
    fa "t1" "u1" ∈ dup_demo ∧
    (deduplicate_articles dup_demo).countP (fun x => x.url == (fa "t1" "u1").url) = 1 :=
  ⟨by decide, (deduplicate_articles_unique dup_demo).2 (fa "t1" "u1") (by decide)⟩

/-- C10: `deduplicate_articles` returns a sublist of its input (so the
relative order of kept articles is preserved), for every URL the survivor
is the first occurrence in the input, and the function is idempotent. -/
theorem deduplicate_articles_first_idem (l : List FetchedArticle) :
    (deduplicate_articles l).Sublist l ∧
    (∀ u : String, (deduplicate_articles l).find? (fun a => a.url == u) =
      l.find? (fun a => a.url == u)) ∧
    deduplicate_articles (deduplicate_articles l) = deduplicate_articles l := by
  refine ⟨dedupAux_sublist l [], fun u => dedupAux_find u l [] (by simp), ?_⟩
  exact dedupAux_id (deduplicate_articles l) []
    (fun a _ => by simp) (dedupAux_pairwise l [])

theorem normalizeBias_cases (r : String) :
    normalizeBias r = "esquerda" ∨ normalizeBias r = "centro" ∨
      normalizeBias r = "direita" := by
  unfold normalizeBias
  dsimp only
  split
  · exact Or.inl rfl
  · split
    · exact Or.inr (Or.inr rfl)
    · exact Or.inr (Or.inl rfl)

theorem analyze_political_bias_cases (g : GeminiService) (t c : String) :
    g.analyze_political_bias t c = "esquerda" ∨
    g.analyze_political_bias t c = "centro" ∨
    g.analyze_political_bias t c = "direita" := by
  unfold GeminiService.analyze_political_bias
  split
  · exact Or.inr (Or.inl rfl)
  · split
    · exact Or.inr (Or.inl rfl)
    · exact normalizeBias_cases _

theorem enrichArticle_configured (g : GeminiService) (a : Article)
    (hg : g.configured = true) :
    ∃ a2 : Article,
      enrichArticle g a =
        { a2 with political_bias := some (g.analyze_political_bias a2.title a2.content) } ∧
      a2.title = a.title ∧ a2.content = a.content ∧
      (a2.summary = a.summary ∨ a2.summary.isEmpty = false) := by
  unfold enrichArticle
  rw [if_pos hg]
  rcases hsum : g.summarize_article a.title a.content with _ | s
  · simp only [hsum]
    rcases hbul : g.generate_bullet_point_highlights a.title a.content with _ | bs
    · simp only [hbul]
      exact ⟨a, rfl, rfl, rfl, Or.inl rfl⟩
    · simp only [hbul]
      by_cases hbe : bs.isEmpty = true
      · rw [if_pos hbe]
        exact ⟨a, rfl, rfl, rfl, Or.inl rfl⟩
      · rw [if_neg hbe]
        exact ⟨_, rfl, rfl, rfl, Or.inl rfl⟩
  · simp only [hsum]
    by_cases hse : s.isEmpty = true
    · rw [if_pos hse]
      rcases hbul : g.generate_bullet_point_highlights a.title a.content with _ | bs
      · simp only [hbul]
        exact ⟨a, rfl, rfl, rfl, Or.inl rfl⟩
      · simp only [hbul]
        by_cases hbe : bs.isEmpty = true
        · rw [if_pos hbe]
          exact ⟨a, rfl, rfl, rfl, Or.inl rfl⟩
        · rw [if_neg hbe]
          exact ⟨_, rfl, rfl, rfl, Or.inl rfl⟩
    · rw [if_neg hse]
      dsimp only
      rcases hbul : g.generate_bullet_point_highlights a.title a.content with _ | bs
      · simp only [hbul]
        refine ⟨{ a with summary := s }, rfl, rfl, rfl, Or.inr ?_⟩
        simpa using hse
      · simp only [hbul]
        by_cases hbe : bs.isEmpty = true
        · rw [if_pos hbe]
          refine ⟨{ a with summary := s }, rfl, rfl, rfl, Or.inr ?_⟩
          simpa using hse
        · rw [if_neg hbe]
          refine ⟨_, rfl, rfl, rfl, Or.inr ?_⟩
          simpa using hse

/-- C1 counterexample: with the AI Text Service unavailable in the sense
of `is_available()` (no API key), the route skips the whole enrichment
block, so the article leaves enrichment with a null bias field rather
than `"centro"`. -/
theorem enrich_unavailable_counterexample :
    (enrichArticle gemini_unconfigured demo_article).political_bias = none ∧
    (none : Option String) ≠ some "centro" := by
  exact ⟨rfl, by decide⟩

/-- C1 amended: every enriched article keeps a non-empty summary (the
excerpt set by the fetcher, replaced only by a non-empty AI summary); when
the AI key is configured, the bias field is always set to one of the three
canonical labels, and if every AI request fails it is exactly `"centro"`
with the summary left equal to the excerpt; when the key is missing,
enrichment is skipped entirely and the article (bias field included) is
unchanged. -/
theorem enrichArticle_fallback (g : GeminiService) (a : Article)
    (hs : a.summary.isEmpty = false) :
    (enrichArticle g a).summary.isEmpty = false ∧
    (g.configured = true →
      ∃ b, (enrichArticle g a).political_bias = some b ∧
        (b = "esquerda" ∨ b = "centro" ∨ b = "direita")) ∧
    (g.configured = true → (∀ p, g.respond p = none) →
      (enrichArticle g a).political_bias = some "centro" ∧
      (enrichArticle g a).summary = a.summary) ∧
    (g.configured = false → enrichArticle g a = a) := by
  refine ⟨?_, ?_, ?_, ?_⟩
  · cases hg : g.configured
    · simp only [enrichArticle, hg, Bool.false_eq_true, if_false]
      exact hs
    · obtain ⟨a2, heq, _, _, hsummary⟩ := enrichArticle_configured g a hg
      rw [heq]
      rcases hsummary with h | h
      · simpa [h] using hs
      · simpa using h
  · intro hg
    obtain ⟨a2, heq, _, _, _⟩ := enrichArticle_configured g a hg
    rw [heq]
    exact ⟨_, rfl, analyze_political_bias_cases g a2.title a2.content⟩
  · intro hg hresp
    have hsum : g.summarize_article a.title a.content = none := by
      simp [GeminiService.summarize_article, GeminiService.make_request, hg, hresp]
    have hbul : g.generate_bullet_point_highlights a.title a.content = none := by
      simp [GeminiService.generate_bullet_point_highlights, GeminiService.make_request,
        hg, hresp]
    have hana : g.analyze_political_bias a.title a.content = "centro" := by
      simp [GeminiService.analyze_political_bias, GeminiService.make_request, hg, hresp]
    have : enrichArticle g a = { a with political_bias := some "centro" } := by
      unfold enrichArticle
      rw [if_pos hg, hsum]
      simp only [hbul, hana]
    rw [this]
    exact ⟨rfl, rfl⟩
  · intro hg
    simp [enrichArticle, hg]

/-- Witness evaluating the C1 fallback on a configured but failing client. -/
theorem enrichArticle_fallback_witness :
    (enrichArticle gemini_failing demo_article).political_bias = some "centro" ∧
    (enrichArticle gemini_failing demo_article).summary = demo_article.summary :=
  (enrichArticle_fallback gemini_failing demo_article (by rfl)).2.2.1 (by rfl)
    (fun _ => rfl)

/-- C3 counterexample: a non-empty catalog with no Brazilian channel makes
`get_brazilian_sources_domains` return the empty list instead of the
default list, and `get_news_by_topic` then raises `ZeroDivisionError` when
dividing `limit` by the number of selected sources. -/
theorem get_news_by_topic_div_by_zero :
    get_brazilian_sources_domains [us_channel] = [] ∧
    get_brazilian_sources_domains [us_channel] ≠ default_brazilian_domains ∧
    get_news_by_topic no_api [us_channel] none "tecnologia" 20 =
      Except.error "ZeroDivisionError: integer division or modulo by zero" := by
  refine ⟨rfl, by decide, rfl⟩

/-- C3 amended: whenever the resolved source list is non-empty — in
particular when the user supplies channels, when the catalog is empty or
unavailable (default fallback), or when the catalog has at least one
`'br'` channel — `get_news_by_topic` returns a result without raising;
the empty catalog is replaced by the fixed default domain list. -/
theorem get_news_by_topic_total (api : String → Option (List RawArticle))
    (channels : List Channel) (user_channels : Option (List String))
    (topic : String) (limit : Nat)
    (h : resolve_selected_sources channels user_channels ≠ []) :
    get_brazilian_sources_domains [] = default_brazilian_domains ∧
    get_news_by_topic api channels user_channels topic limit =
      Except.ok (fetch_topic_articles api topic limit
        (resolve_selected_sources channels user_channels)) := by
  refine ⟨rfl, ?_⟩
  unfold get_news_by_topic
  rw [if_neg]
  simpa [List.length_eq_zero] using h

/-- Witness evaluating C3 on an empty catalog. -/
theorem get_news_by_topic_total_witness :
    get_news_by_topic no_api [] none "tecnologia" 20 =
      Except.ok (fetch_topic_articles no_api "tecnologia" 20
        (resolve_selected_sources [] none)) :=
  (get_news_by_topic_total no_api [] none "tecnologia" 20 (by decide)).2

/-- C4: a corroboration worker run (modelled as a total function, so it
propagates no exception) ends with status `available` exactly when at
least one RelatedSource record was created, and with status `error` in
every other case, including an absorbed exception. -/
theorem analyze_comprehensive_bias_status (g : GeminiService) (article_obj : ArticleObj)
    (search : Except String (List Article))
    (create : RelatedSource → Except String (Option RelatedSource)) :
    (worker_final_status (analyze_comprehensive_bias g article_obj search create) =
        "available" ↔ 1 ≤ (analyze_comprehensive_bias g article_obj search create).2) ∧
    (worker_final_status (analyze_comprehensive_bias g article_obj search create) =
        "available" ∨
     worker_final_status (analyze_comprehensive_bias g article_obj search create) =
        "error") := by
  unfold analyze_comprehensive_bias
  rcases search with e | related
  · dsimp only
    exact ⟨by decide, by decide⟩
  · dsimp only
    split
    · exact ⟨by decide, by decide⟩
    · split
      · exact ⟨by decide, by decide⟩
      · split
        · rename_i hc
          exact ⟨⟨fun _ => hc, fun _ => rfl⟩, Or.inl rfl⟩
        · rename_i hc
          have hc0 := Nat.eq_zero_of_not_pos hc
          refine ⟨⟨fun habs => ?_, fun h1 => ?_⟩, Or.inr rfl⟩
          · have h2 : ("error" : String) = "available" := habs
            exact absurd h2 (by decide)
          · omega

/-- C8: within one worker run, the trace of status writes is exactly
`generating` followed by a single terminal status (`available` or
`error`); no write follows the terminal one, so the status can only
change again when a new run is triggered. -/
theorem analyze_comprehensive_bias_trace (g : GeminiService) (article_obj : ArticleObj)
    (search : Except String (List Article))
    (create : RelatedSource → Except String (Option RelatedSource)) :
    ∃ t, (t = "available" ∨ t = "error") ∧
      (analyze_comprehensive_bias g article_obj search create).1 =
        ["generating", t] := by
  unfold analyze_comprehensive_bias
  rcases search with e | related
  · exact ⟨"error", Or.inr rfl, rfl⟩
  · dsimp only
    split
    · exact ⟨"error", Or.inr rfl, rfl⟩
    · split
      · exact ⟨"error", Or.inr rfl, rfl⟩
      · split
        · exact ⟨"available", Or.inl rfl, rfl⟩
        · exact ⟨"error", Or.inr rfl, rfl⟩

theorem one_le_source_limit (limit n i : Nat) : 1 ≤ source_limit limit n i := by
  unfold source_limit news_per_source
  have h := Nat.le_max_left 1 (limit / n)
  split <;> omega

theorem collect_source_articles_eq (topic : String) (k : Nat) (raws : List RawArticle) :
    ∀ acc : List Article, acc.length < k →
      collect_source_articles topic k raws acc =
        acc ++ ((raws.filter valid_raw).take (k - acc.length)).map (process_raw topic) := by
  induction raws with
  | nil => intro acc h; simp [collect_source_articles]
  | cons r rest ih =>
    intro acc h
    simp only [collect_source_articles]
    cases hv : valid_raw r
    · simp only [Bool.false_eq_true, if_false]
      rw [ih acc h, List.filter_cons_of_neg (by simp [hv])]
    · simp only [if_true]
      rw [List.filter_cons_of_pos hv]
      by_cases hk : k ≤ (acc ++ [process_raw topic r]).length
      · rw [if_pos hk]
        rw [List.length_append] at hk
        have hk1 : k - acc.length = 1 := by simp at hk; omega
        rw [hk1]
        simp
      · rw [if_neg hk]
        rw [List.length_append] at hk
        have h2 : (acc ++ [process_raw topic r]).length < k := by
          rw [List.length_append]; simp at hk ⊢; omega
        rw [ih _ h2]
        have h3 : k - acc.length = (k - (acc ++ [process_raw topic r]).length) + 1 := by
          rw [List.length_append]; simp; simp at hk; omega
        rw [h3, List.take_succ_cons]
        simp

/-- C7: `get_news_by_topic` returns at most `limit` articles; the per-source
loop contributes at most its computed sub-limit even when the API returns
more raw articles; and the result is exactly the prefix of length `limit`
of the concatenation, in domain order, of each domain's valid articles
capped at its sub-limit — so insertion order is preserved. -/
theorem fetch_topic_spec (api : String → Option (List RawArticle)) (topic : String)
    (limit : Nat) (domains : List String)
    (h1 : 1 ≤ limit) (h2 : domains ≠ []) :
    (fetch_topic_articles api topic limit domains).length ≤ limit ∧
    (∀ (raws : List RawArticle) (k : Nat), 1 ≤ k →
      (collect_source_articles topic k raws []).length ≤ k) ∧
    fetch_topic_articles api topic limit domains =
      ((domains.enum.map (fun p =>
        match api p.2 with
        | some raws =>
            ((raws.filter valid_raw).take (source_limit limit domains.length p.1)).map
              (process_raw topic)
        | none => [])).flatten).take limit := by
  refine ⟨List.length_take_le _ _, ?_, ?_⟩
  · intro raws k hk
    rw [collect_source_articles_eq topic k raws [] (by simpa using hk)]
    simp only [List.nil_append, List.length_map, Nat.sub_zero]
    exact List.length_take_le _ _
  · unfold fetch_topic_articles
    congr 1
    congr 1
    apply List.map_congr_left
    intro p hp
    cases hapi : api p.2
    · rfl
    · rename_i raws
      dsimp only
      rw [collect_source_articles_eq topic _ raws []
        (by simpa using one_le_source_limit limit domains.length p.1)]
      simp

/-- Witness evaluating C7 on a one-domain fetch. -/
theorem fetch_topic_spec_witness :
    (fetch_topic_articles api_demo "tecnologia" 1 ["a.com"]).length ≤ 1 :=
  (fetch_topic_spec api_demo "tecnologia" 1 ["a.com"] (by decide) (by decide)).1

theorem topics_total_cons (k : String) (w : List Article) (m : TopicMap) :
    topics_total ((k, w) :: m) = w.length + topics_total m := by
  simp [topics_total]

theorem alGet_alSet (m : TopicMap) (t t' : String) (v : List Article) :
    alGet (alSet m t v) t' = if t = t' then some v else alGet m t' := by
  induction m with
  | nil => simp [alSet, alGet]
  | cons p rest ih =>
    obtain ⟨k, w⟩ := p
    by_cases hkt : k = t
    · subst hkt
      by_cases hkt' : k = t'
      · subst hkt'; simp [alSet, alGet]
      · simp [alSet, alGet, hkt']
    · by_cases hkt' : k = t'
      · subst hkt'
        simp [alSet, alGet, hkt, Ne.symm hkt]
      · simp [alSet, alGet, hkt, hkt', ih]

theorem alGet_alUpdate (m : TopicMap) (t t' : String) (f : List Article → List Article) :
    alGet (alUpdate m t f) t' = if t = t' then (alGet m t').map f else alGet m t' := by
  induction m with
  | nil => simp [alUpdate, alGet]
  | cons p rest ih =>
    obtain ⟨k, w⟩ := p
    by_cases hkt : k = t
    · subst hkt
      by_cases hkt' : k = t'
      · subst hkt'; simp [alUpdate, alGet]
      · simp [alUpdate, alGet, hkt']
    · by_cases hkt' : k = t'
      · subst hkt'; simp [alUpdate, alGet, hkt, Ne.symm hkt]
      · simp [alUpdate, alGet, hkt, hkt', ih]

theorem topics_total_alSet (m : TopicMap) (t : String) (v : List Article) :
    topics_total (alSet m t v) ≤ topics_total m + v.length := by
  induction m with
  | nil => simp [alSet, topics_total]
  | cons p rest ih =>
    obtain ⟨k, w⟩ := p
    by_cases hkt : k = t
    · subst hkt
      have hset : alSet ((k, w) :: rest) k v = (k, v) :: rest := by simp [alSet]
      rw [hset, topics_total_cons, topics_total_cons]
      omega
    · have hset : alSet ((k, w) :: rest) t v = (k, w) :: alSet rest t v := by
        simp [alSet, hkt]
      rw [hset, topics_total_cons, topics_total_cons]
      omega

theorem topics_total_alUpdate_append (m : TopicMap) (t : String) (l : List Article) :
    topics_total (alUpdate m t (fun w => w ++ l)) ≤ topics_total m + l.length := by
  induction m with
  | nil => simp [alUpdate, topics_total]
  | cons p rest ih =>
    obtain ⟨k, w⟩ := p
    by_cases hkt : k = t
    · subst hkt
      have hupd : alUpdate ((k, w) :: rest) k (fun w => w ++ l) = (k, w ++ l) :: rest := by
        simp [alUpdate]
      rw [hupd, topics_total_cons, topics_total_cons]
      simp only [List.length_append]
      omega
    · have hupd : alUpdate ((k, w) :: rest) t (fun w => w ++ l) =
          (k, w) :: alUpdate rest t (fun w => w ++ l) := by
        simp [alUpdate, hkt]
      rw [hupd, topics_total_cons, topics_total_cons]
      omega

theorem pass1_tot_le (F : String → Nat → List Article) (limit : Nat)
    (hcap : ∀ t, (F t 1).length ≤ 1) :
    ∀ (ts : List String) (m : TopicMap) (tot : Nat), tot ≤ limit →
      (pass1 F limit ts m tot).2 ≤ limit := by
  intro ts
  induction ts with
  | nil => intro m tot h; simpa [pass1] using h
  | cons t ts ih =>
    intro m tot h
    simp only [pass1]
    split
    · simpa using h
    · rename_i hlim
      split
      · exact ih m tot h
      · apply ih
        have := hcap t
        omega

theorem pass1_sum_le (F : String → Nat → List Article) (limit : Nat) :
    ∀ (ts : List String) (m : TopicMap) (tot : Nat), topics_total m ≤ tot →
      topics_total (pass1 F limit ts m tot).1 ≤ (pass1 F limit ts m tot).2 := by
  intro ts
  induction ts with
  | nil => intro m tot h; simpa [pass1] using h
  | cons t ts ih =>
    intro m tot h
    simp only [pass1]
    split
    · simpa using h
    · split
      · exact ih m tot h
      · apply ih
        have := topics_total_alSet m t (F t 1)
        omega

theorem pass1_preserve (F : String → Nat → List Article) (limit : Nat) :
    ∀ (ts : List String) (m : TopicMap) (tot : Nat) (t : String) (v : List Article),
      alGet m t = some v → v ≠ [] →
      ∃ v', alGet (pass1 F limit ts m tot).1 t = some v' ∧ v' ≠ [] := by
  intro ts
  induction ts with
  | nil => intro m tot t v h hv; exact ⟨v, by simpa [pass1] using h, hv⟩
  | cons s ts ih =>
    intro m tot t v h hv
    simp only [pass1]
    split
    · exact ⟨v, by simpa using h, hv⟩
    · split
      · exact ih m tot t v h hv
      · rename_i hne
        by_cases hst : s = t
        · subst hst
          refine ih _ _ s (F s 1) ?_ ?_
          · rw [alGet_alSet]; simp
          · intro habs
            rw [habs] at hne
            simp at hne
        · refine ih _ _ t v ?_ hv
          rw [alGet_alSet, if_neg hst]
          exact h

theorem pass1_covers (F : String → Nat → List Article) (limit : Nat)
    (hcap : ∀ t, (F t 1).length ≤ 1) (hsup : ∀ t, F t 1 ≠ []) :
    ∀ (ts : List String) (m : TopicMap) (tot : Nat), tot + ts.length ≤ limit →
      ∀ t ∈ ts, ∃ v, alGet (pass1 F limit ts m tot).1 t = some v ∧ v ≠ [] := by
  intro ts
  induction ts with
  | nil => intro m tot h t ht; simp at ht
  | cons s ts ih =>
    intro m tot h t ht
    have hlim : ¬ limit ≤ tot := by
      simp only [List.length_cons] at h
      omega
    have hne : ¬ (F s 1).isEmpty = true := by
      simpa [List.isEmpty_iff] using hsup s
    simp only [pass1]
    rw [if_neg hlim, if_neg hne]
    rcases List.mem_cons.mp ht with heq | hmem
    · subst heq
      exact pass1_preserve F limit ts _ _ t (F t 1) (by rw [alGet_alSet]; simp) (hsup t)
    · refine ih _ _ ?_ t hmem
      have := hcap s
      simp only [List.length_cons] at h
      omega

theorem pass2_budget (F : String → Nat → List Article) :
    ∀ (ts : List String) (m : TopicMap) (tot rem : Nat),
      (pass2 F ts m tot rem).2.1 + (pass2 F ts m tot rem).2.2 ≤ tot + rem := by
  intro ts
  induction ts with
  | nil => intro m tot rem; simp [pass2]
  | cons t ts ih =>
    intro m tot rem
    simp only [pass2]
    split
    · simp
    · rename_i hrem
      split
      · exact ih m tot rem
      · split
        · split
          · exact ih m tot rem
          · refine le_trans (ih _ _ _) ?_
            omega
        · exact ih m tot rem

theorem pass2_sum_le (F : String → Nat → List Article) :
    ∀ (ts : List String) (m : TopicMap) (tot rem : Nat), topics_total m ≤ tot →
      topics_total (pass2 F ts m tot rem).1 ≤ (pass2 F ts m tot rem).2.1 := by
  intro ts
  induction ts with
  | nil => intro m tot rem h; simpa [pass2] using h
  | cons t ts ih =>
    intro m tot rem h
    simp only [pass2]
    split
    · simpa using h
    · split
      · exact ih m tot rem h
      · split
        · split
          · exact ih m tot rem h
          · apply ih
            refine le_trans (topics_total_alUpdate_append m t _) ?_
            simp only [List.length_cons, List.length_nil]
            omega
        · exact ih m tot rem h

theorem pass2_preserve (F : String → Nat → List Article) :
    ∀ (ts : List String) (m : TopicMap) (tot rem : Nat) (t : String) (v : List Article),
      alGet m t = some v → v ≠ [] →
      ∃ v', alGet (pass2 F ts m tot rem).1 t = some v' ∧ v' ≠ [] := by
  intro ts
  induction ts with
  | nil => intro m tot rem t v h hv; exact ⟨v, by simpa [pass2] using h, hv⟩
  | cons s ts ih =>
    intro m tot rem t v h hv
    simp only [pass2]
    split
    · exact ⟨v, by simpa using h, hv⟩
    · split
      · exact ih m tot rem t v h hv
      · rename_i arts harts
        split
        · split
          · exact ih m tot rem t v h hv
          · rename_i na aa tl heq2
            by_cases hst : s = t
            · subst hst
              refine ih _ _ _ s (v ++ [aa]) ?_ ?_
              · rw [alGet_alUpdate, if_pos rfl, h]
                rfl
              · simp
            · refine ih _ _ _ t v ?_ hv
              rw [alGet_alUpdate, if_neg hst]
              exact h
        · exact ih m tot rem t v h hv

theorem pass3_budget (F : String → Nat → List Article) :
    ∀ (ts : List String) (m : TopicMap) (tot rem : Nat),
      (pass3 F ts m tot rem).2.1 + (pass3 F ts m tot rem).2.2 ≤ tot + rem := by
  intro ts
  induction ts with
  | nil => intro m tot rem; simp [pass3]
  | cons t ts ih =>
    intro m tot rem
    simp only [pass3]
    split
    · simp
    · rename_i hrem
      split
      · exact ih m tot rem
      · split
        · exact ih m tot rem
        · rename_i arts harts hca
          refine le_trans (ih _ _ _) ?_
          have hlen : (List.take (min rem 3) (List.filter
              (fun a => !(List.map (fun a => a.url) arts).contains a.url)
              (F t (2 + min rem 3)))).length ≤ min rem 3 :=
            List.length_take_le _ _
          have hmin : min rem 3 ≤ rem := Nat.min_le_left _ _
          omega

theorem pass3_sum_le (F : String → Nat → List Article) :
    ∀ (ts : List String) (m : TopicMap) (tot rem : Nat), topics_total m ≤ tot →
      topics_total (pass3 F ts m tot rem).1 ≤ (pass3 F ts m tot rem).2.1 := by
  intro ts
  induction ts with
  | nil => intro m tot rem h; simpa [pass3] using h
  | cons t ts ih =>
    intro m tot rem h
    simp only [pass3]
    split
    · simpa using h
    · split
      · exact ih m tot rem h
      · split
        · exact ih m tot rem h
        · apply ih
          refine le_trans (topics_total_alUpdate_append m t _) ?_
          omega

theorem pass3_preserve (F : String → Nat → List Article) :
    ∀ (ts : List String) (m : TopicMap) (tot rem : Nat) (t : String) (v : List Article),
      alGet m t = some v → v ≠ [] →
      ∃ v', alGet (pass3 F ts m tot rem).1 t = some v' ∧ v' ≠ [] := by
  intro ts
  induction ts with
  | nil => intro m tot rem t v h hv; exact ⟨v, by simpa [pass3] using h, hv⟩
  | cons s ts ih =>
    intro m tot rem t v h hv
    simp only [pass3]
    split
    · exact ⟨v, by simpa using h, hv⟩
    · split
      · exact ih m tot rem t v h hv
      · split
        · exact ih m tot rem t v h hv
        · rename_i arts harts hca
          by_cases hst : s = t
          · subst hst
            refine ih _ _ _ s (v ++ List.take (min rem 3) (List.filter
                (fun a => !(List.map (fun a => a.url) arts).contains a.url)
                (F s (2 + min rem 3)))) ?_ ?_
            · rw [alGet_alUpdate, if_pos rfl, h]
              rfl
            · simp [hv]
          · refine ih _ _ _ t v ?_ hv
            rw [alGet_alUpdate, if_neg hst]
            exact h

/-- C2: under the assumption that each per-topic fetch supplies at least
one article when asked for one and never more than requested (the cap
proved of `get_news_by_topic` in `fetch_topic_spec`), the multi-topic
distribution gives every requested topic at least one article whenever
`totalLimit ≥ |topics|`, the total number of stored articles never
exceeds `totalLimit`, and an empty topic list yields the empty map. -/
theorem get_news_by_multiple_topics_allocation (F : String → Nat → List Article)
    (topics : List String) (limit : Nat)
    (hcap : ∀ t, (F t 1).length ≤ 1) (hsup : ∀ t, F t 1 ≠ [])
    (hlim : topics.length ≤ limit) :
    get_news_by_multiple_topics F [] limit = [] ∧
    (∀ t ∈ topics, ∃ arts,
      alGet (get_news_by_multiple_topics F topics limit) t = some arts ∧
      1 ≤ arts.length) ∧
    topics_total (get_news_by_multiple_topics F topics limit) ≤ limit := by
  refine ⟨rfl, ?_, ?_⟩
  · intro t ht
    have htop : topics ≠ [] := by
      intro h
      subst h
      simp at ht
    unfold get_news_by_multiple_topics
    rw [if_neg (by simpa [List.isEmpty_iff] using htop)]
    dsimp only
    obtain ⟨v1, hv1, hv1ne⟩ :=
      pass1_covers F limit hcap hsup topics [] 0 (by simpa using hlim) t ht
    obtain ⟨v2, hv2, hv2ne⟩ := pass2_preserve F topics _ _ _ t v1 hv1 hv1ne
    obtain ⟨v3, hv3, hv3ne⟩ := pass3_preserve F topics _ _ _ t v2 hv2 hv2ne
    exact ⟨v3, hv3, Nat.succ_le_of_lt (List.length_pos.mpr hv3ne)⟩
  · by_cases htop : topics = []
    · subst htop
      simp [get_news_by_multiple_topics, topics_total]
    · unfold get_news_by_multiple_topics
      rw [if_neg (by simpa [List.isEmpty_iff] using htop)]
      dsimp only
      have h1tot : (pass1 F limit topics [] 0).2 ≤ limit :=
        pass1_tot_le F limit hcap topics [] 0 (Nat.zero_le _)
      have h1sum := pass1_sum_le F limit topics [] 0 (by simp [topics_total])
      have h2b := pass2_budget F topics (pass1 F limit topics [] 0).1
        (pass1 F limit topics [] 0).2 (limit - (pass1 F limit topics [] 0).2)
      have h2sum := pass2_sum_le F topics (pass1 F limit topics [] 0).1
        (pass1 F limit topics [] 0).2 (limit - (pass1 F limit topics [] 0).2) h1sum
      have h3b := pass3_budget F topics
        (pass2 F topics (pass1 F limit topics [] 0).1 (pass1 F limit topics [] 0).2
          (limit - (pass1 F limit topics [] 0).2)).1
        (pass2 F topics (pass1 F limit topics [] 0).1 (pass1 F limit topics [] 0).2
          (limit - (pass1 F limit topics [] 0).2)).2.1
        (limit - (pass2 F topics (pass1 F limit topics [] 0).1 (pass1 F limit topics [] 0).2
          (limit - (pass1 F limit topics [] 0).2)).2.1)
      have h3sum := pass3_sum_le F topics
        (pass2 F topics (pass1 F limit topics [] 0).1 (pass1 F limit topics [] 0).2
          (limit - (pass1 F limit topics [] 0).2)).1
        (pass2 F topics (pass1 F limit topics [] 0).1 (pass1 F limit topics [] 0).2
          (limit - (pass1 F limit topics [] 0).2)).2.1
        (limit - (pass2 F topics (pass1 F limit topics [] 0).1 (pass1 F limit topics [] 0).2
          (limit - (pass1 F limit topics [] 0).2)).2.1) h2sum
      omega

/-- Witness evaluating the C2 allocation on three topics and budget 15. -/
theorem get_news_by_multiple_topics_allocation_witness :
    (∀ t ∈ ["a", "b", "c"], ∃ arts,
      alGet (get_news_by_multiple_topics F_demo ["a", "b", "c"] 15) t = some arts ∧
      1 ≤ arts.length) ∧
    topics_total (get_news_by_multiple_topics F_demo ["a", "b", "c"] 15) ≤ 15 :=
  ⟨(get_news_by_multiple_topics_allocation F_demo ["a", "b", "c"] 15
      (fun t => by simp [F_demo]) (fun t => by simp [F_demo]) (by decide)).2.1,
   (get_news_by_multiple_topics_allocation F_demo ["a", "b", "c"] 15
      (fun t => by simp [F_demo]) (fun t => by simp [F_demo]) (by decide)).2.2⟩

end Merculy
